import Mathlib

/-!
Verification of the rustfuck front-end parser (`src/rustfucked.rs`), the
tree-walking executor (`execute` in the same file), and the LLVM-IR code
generator (`src/llvm_ir_generator.rs`).

Modelling conventions:
* Source bytes are `Nat` values (the `u8` byte values); the relevant ASCII
  codes are `[` = 91, `]` = 93, `>` = 62, `<` = 60, `+` = 43, `-` = 45,
  `,` = 44, `.` = 46.
* Rust `i32` values are modelled as `Int`.
* The Rust `parse` function contains a `while` loop with a recursive call
  whose combination is not structurally terminating (and indeed does not
  terminate on some inputs), so it is embedded fuel-indexed: one unit of
  fuel is consumed per loop iteration and per recursive entry, and `none`
  means the fuel ran out.  A result of `none` for every fuel corresponds to
  non-termination of the Rust code.
* The executor `execute` is likewise fuel-indexed.  Rust panics (tape index
  out of bounds, `unwrap` on empty stdin) are modelled as `none` as well,
  distinguished by never occurring in the runs the theorems speak about.
* The IR generator emits text via `write!`; each emitted line is modelled
  as a constructor of the inductive type `Line` carrying exactly the format
  arguments (virtual register numbers, label ids, immediates) that the
  source interpolates into the line.
-/

/-- The statement tree, mirroring `enum Stmt` in `rustfucked.rs`. -/
inductive Stmt : Type where
  | Move : Int → Stmt
  | Add : Int → Stmt
  | Input : Stmt
  | Output : Stmt
  | Loop : List Stmt → Stmt

/-- The `match c` on lines 64-72 of `rustfucked.rs`: which primitive
statement (if any) a source byte denotes. -/
def charToStmt (c : Nat) : Option Stmt :=
  if c = 62 then some (Stmt.Move 1)
  else if c = 60 then some (Stmt.Move (-1))
  else if c = 43 then some (Stmt.Add 1)
  else if c = 45 then some (Stmt.Add (-1))
  else if c = 44 then some Stmt.Input
  else if c = 46 then some Stmt.Output
  else none

/-- Lines 75-86 of `rustfucked.rs`: append statement `s` to the code vector,
merging it into the last element when both are `Move` or both are `Add`.
The Rust code inspects and overwrites `code[code.len() - 1]`; this
recursion walks to the last element and performs the same case split
there. -/
def foldPush : List Stmt → Stmt → List Stmt
  | [], s => [s]
  | [Stmt.Move n], Stmt.Move m => [Stmt.Move (n + m)]
  | [Stmt.Add n], Stmt.Add m => [Stmt.Add (n + m)]
  | [a], s => [a, s]
  | a :: b :: rest, s => a :: foldPush (b :: rest) s

/-- Fuel-indexed embedding of `parse` (lines 43-92 of `rustfucked.rs`).
`code` is the local `Vec` accumulator and `i` the scan index; one unit of
fuel is consumed per `while` iteration and per recursive entry.  On `[` the
recursive call starts with a fresh accumulator; its returned resume index
(0 when the recursion ran off the end of the input, line 91) becomes the
new scan index of the caller.  On `]` the scan returns `(code, i + 1)`
(line 60); at end of input it returns `(code, 0)` (line 91). -/
def parseGo : Nat → List Nat → List Stmt → Nat → Option (List Stmt × Nat)
  | 0, _, _, _ => none
  | fuel + 1, src, code, i =>
    if h : i < src.length then
      if src[i] = 91 then
        match parseGo fuel src [] (i + 1) with
        | none => none
        | some (loopCode, idxAfter) =>
            parseGo fuel src (code ++ [Stmt.Loop loopCode]) idxAfter
      else if src[i] = 93 then
        some (code, i + 1)
      else
        match charToStmt src[i] with
        | none => parseGo fuel src code (i + 1)
        | some s => parseGo fuel src (foldPush code s) (i + 1)
    else
      some (code, 0)

/-- `parse(src, start_idx)` as called from outside: fresh accumulator. -/
def parse (fuel : Nat) (src : List Nat) (start : Nat) :
    Option (List Stmt × Nat) :=
  parseGo fuel src [] start

/-- Ghost-instrumented variant of `parseGo`, identical in every branch
(see `parseGo_eq_parseGoB`) but additionally recording in a `Bool` whether
the call or any of its descendants returned through the end-of-input branch
(line 91 of the source) rather than through a `]`.  A `false` flag
certifies that the whole scan was driven by `]` returns only. -/
def parseGoB : Nat → List Nat → List Stmt → Nat → Option (List Stmt × Nat × Bool)
  | 0, _, _, _ => none
  | fuel + 1, src, code, i =>
    if h : i < src.length then
      if src[i] = 91 then
        match parseGoB fuel src [] (i + 1) with
        | none => none
        | some (loopCode, idxAfter, b₁) =>
            match parseGoB fuel src (code ++ [Stmt.Loop loopCode]) idxAfter with
            | none => none
            | some (p, r, b₂) => some (p, r, b₁ || b₂)
      else if src[i] = 93 then
        some (code, i + 1, false)
      else
        match charToStmt src[i] with
        | none => parseGoB fuel src code (i + 1)
        | some s => parseGoB fuel src (foldPush code s) (i + 1)
    else
      some (code, 0, true)

theorem parseGo_eq_parseGoB (fuel : Nat) :
    ∀ src code i, parseGo fuel src code i =
      (parseGoB fuel src code i).map (fun t => (t.1, t.2.1)) := by
  induction fuel with
  | zero => intro src code i; rfl
  | succ fuel ih =>
      intro src code i
      rw [parseGo, parseGoB]
      by_cases h : i < src.length
      · simp only [dif_pos h]
        by_cases h91 : src[i] = 91
        · simp only [if_pos h91]
          rw [ih src [] (i + 1)]
          cases hB : parseGoB fuel src [] (i + 1) with
          | none => rfl
          | some t =>
              obtain ⟨lc, r, b⟩ := t
              rw [Option.map_some']
              show parseGo fuel src (code ++ [Stmt.Loop lc]) r = _
              rw [ih src (code ++ [Stmt.Loop lc]) r]
              cases hB2 : parseGoB fuel src (code ++ [Stmt.Loop lc]) r with
              | none => simp [hB2]
              | some t2 => obtain ⟨p, r', b₂⟩ := t2; simp [hB2]
        · simp only [if_neg h91]
          by_cases h93 : src[i] = 93
          · simp [if_pos h93]
          · simp only [if_neg h93]
            cases hc : charToStmt src[i] with
            | none => exact ih src code (i + 1)
            | some s => exact ih src (foldPush code s) (i + 1)
      · simp [dif_neg h]

/-- `TAPE_SIZE` from `rustfucked.rs` line 19. -/
def TAPE_SIZE : Nat := 65536

/-- The closure `modulo` on line 96 of `rustfucked.rs`.  Rust `%` on `i32`
is truncated remainder, i.e. `Int.tmod`. -/
def modulo (v m : Int) : Int := Int.tmod (Int.tmod v m + m) m

/-- `ProgramState` (lines 31-34) extended with the input stream (stdin)
and the output sink (stdout), so that the I/O performed by `execute` is
visible to the theorems. -/
structure ExecState where
  ptr : Int
  tape : Nat → Int
  inp : List Int
  out : List Int

/-- The state `main` constructs before interpreting: `ptr: 0`, an
all-zero tape, no output yet. -/
def freshState (inp : List Int) : ExecState :=
  { ptr := 0, tape := fun _ => 0, inp := inp, out := [] }

/-- `state.tape[state.ptr as usize]` panics unless the `usize` cast of the
pointer lands inside the tape; for `i32` pointers that is exactly
`0 ≤ ptr < TAPE_SIZE` (negative values wrap to indices far above the tape
length). -/
def ptrOk (p : Int) : Prop := 0 ≤ p ∧ p < (TAPE_SIZE : Int)

instance (p : Int) : Decidable (ptrOk p) := by
  unfold ptrOk; infer_instance

/-- Pointwise update of the modelled tape array. -/
def setTape (t : Nat → Int) (j : Nat) (v : Int) : Nat → Int :=
  fun k => if k = j then v else t k

/-- Fuel-indexed embedding of `execute` (lines 94-127 of `rustfucked.rs`).
`idx` is the local loop index; on `Stmt::Loop` with a positive cell the
body is executed and the same `idx` re-examined (the `continue`).  Tape
accesses outside `[0, TAPE_SIZE)` panic (modelled `none`); `Stmt::Input`
first reads stdin (`unwrap` panics on an exhausted stream, modelled
`none`) and stores `modulo input 256`; `Stmt::Output` sends
`tape[ptr] as u8`, i.e. the cell value modulo 256, to the sink. -/
def execGo : Nat → List Stmt → Nat → ExecState → Option ExecState
  | 0, _, _, _ => none
  | fuel + 1, code, idx, st =>
    if h : idx < code.length then
      match code[idx] with
      | Stmt.Move n => execGo fuel code (idx + 1) { st with ptr := st.ptr + n }
      | Stmt.Add n =>
          if ptrOk st.ptr then
            let j := st.ptr.toNat
            let t := setTape st.tape j (modulo (st.tape j + n) 256)
            execGo fuel code (idx + 1) { st with tape := t }
          else none
      | Stmt.Input =>
          match st.inp with
          | [] => none
          | b :: rest =>
              if ptrOk st.ptr then
                let t := setTape st.tape st.ptr.toNat (modulo b 256)
                execGo fuel code (idx + 1) { st with tape := t, inp := rest }
              else none
      | Stmt.Output =>
          if ptrOk st.ptr then
            execGo fuel code (idx + 1)
              { st with out := st.out ++ [Int.emod (st.tape st.ptr.toNat) 256] }
          else none
      | Stmt.Loop body =>
          if ptrOk st.ptr then
            if 0 < st.tape st.ptr.toNat then
              match execGo fuel body 0 st with
              | none => none
              | some st' => execGo fuel code idx st'
            else execGo fuel code (idx + 1) st
          else none
    else some st

/-- `execute(code, state)`: the scan starts at index 0. -/
def execute (fuel : Nat) (code : List Stmt) (st : ExecState) :
    Option ExecState :=
  execGo fuel code 0 st

/-- The pair check in the `match (&code[last_idx], &s)` on lines 80-84:
true exactly for two `Move`s or two `Add`s. -/
def mergeable : Stmt → Stmt → Bool
  | Stmt.Move _, Stmt.Move _ => true
  | Stmt.Add _, Stmt.Add _ => true
  | _, _ => false

/-- The folding invariant of the spec: no two adjacent sibling statements
are both `Move` or both `Add`, recursively inside every `Loop` body. -/
def foldedB : List Stmt → Bool
  | [] => true
  | [Stmt.Loop body] => foldedB body
  | [_] => true
  | Stmt.Loop body :: b :: rest =>
      foldedB body && !mergeable (Stmt.Loop body) b && foldedB (b :: rest)
  | a :: b :: rest => !mergeable a b && foldedB (b :: rest)

/-- `CodeGenContext` from `llvm_ir_generator.rs` lines 4-7 (`u32` counters
modelled as `Nat`). -/
structure CodeGenContext where
  regc : Nat
  loopc : Nat

/-- The three block labels a loop emits: `loop_cond{n}`, `loop_begin{n}`,
`loop_end{n}`. -/
inductive Label : Type where
  | lcond : Nat → Label
  | lbegin : Nat → Label
  | lend : Nat → Label
deriving DecidableEq

/-- One emitted line of LLVM IR.  Each constructor corresponds to one
`write!` in `llvm_ir_generator.rs` and carries exactly the format
arguments the source interpolates (virtual register numbers as `Nat`,
immediates as `Int`, labels as `Label`). -/
inductive Line : Type where
  | globalMemory : Line
  | globalMemoryIdx : Line
  | defineMain : Line
  | labelEntry : Line
  | retZero : Line
  | closeMain : Line
  | declarePutchar : Line
  | declareGetchar : Line
  | loadIdx : Nat → Line
  | zextIdx : Nat → Nat → Line
  | gep : Nat → Nat → Line
  | addIdx : Nat → Nat → Int → Line
  | storeIdx : Nat → Line
  | loadCell : Nat → Nat → Line
  | addCell : Nat → Nat → Int → Line
  | storeCell : Nat → Nat → Line
  | callGetchar : Nat → Line
  | truncCell : Nat → Nat → Line
  | zextCell : Nat → Nat → Line
  | callPutchar : Nat → Nat → Line
  | icmpZero : Nat → Nat → Line
  | br : Label → Line
  | brIf : Nat → Label → Label → Line
  | labelDef : Label → Line
deriving DecidableEq

/-- `write_header` (lines 9-15). -/
def write_header : List Line :=
  [Line.globalMemory, Line.globalMemoryIdx, Line.defineMain, Line.labelEntry]

/-- `write_footer` (lines 17-23). -/
def write_footer : List Line :=
  [Line.retZero, Line.closeMain, Line.declarePutchar, Line.declareGetchar]

/-- `write_get_memory_ref` (lines 29-36): load the cursor, widen it,
compute the cell address; `regc += 3` and the returned register
(`regc - 1` after the increment) is the address register `regc + 2`. -/
def write_get_memory_ref (c : CodeGenContext) :
    List Line × CodeGenContext × Nat :=
  ([Line.loadIdx c.regc,
    Line.zextIdx (c.regc + 1) c.regc,
    Line.gep (c.regc + 2) (c.regc + 1)],
   { c with regc := c.regc + 3 }, c.regc + 2)

/-- `write_move` (lines 38-44). -/
def write_move (c : CodeGenContext) (n : Int) : List Line × CodeGenContext :=
  ([Line.loadIdx c.regc,
    Line.addIdx (c.regc + 1) c.regc n,
    Line.storeIdx (c.regc + 1)],
   { c with regc := c.regc + 2 })

/-- `write_add` (lines 46-53). -/
def write_add (c : CodeGenContext) (n : Int) : List Line × CodeGenContext :=
  let g := write_get_memory_ref c
  (g.1 ++
    [Line.loadCell g.2.1.regc g.2.2,
     Line.addCell (g.2.1.regc + 1) g.2.1.regc n,
     Line.storeCell (g.2.1.regc + 1) g.2.2],
   { g.2.1 with regc := g.2.1.regc + 2 })

/-- `write_getc` (lines 55-63). -/
def write_getc (c : CodeGenContext) : List Line × CodeGenContext :=
  let value := c.regc + 1
  let c₁ : CodeGenContext := { c with regc := c.regc + 2 }
  let g := write_get_memory_ref c₁
  ([Line.callGetchar c.regc, Line.truncCell (c.regc + 1) c.regc] ++ g.1 ++
    [Line.storeCell value g.2.2], g.2.1)

/-- `write_putc` (lines 65-72). -/
def write_putc (c : CodeGenContext) : List Line × CodeGenContext :=
  let g := write_get_memory_ref c
  (g.1 ++
    [Line.loadCell g.2.1.regc (g.2.1.regc - 1),
     Line.zextCell (g.2.1.regc + 1) g.2.1.regc,
     Line.callPutchar (g.2.1.regc + 2) (g.2.1.regc + 1)],
   { g.2.1 with regc := g.2.1.regc + 3 })

/-- `write_loop_begin` (lines 74-87): branch to and define `loop_cond`,
compute the cell address, load and compare the cell, branch to `loop_end`
or `loop_begin`, define `loop_begin`; `regc += 2` after the address triple
and `loopc += 1`; returns the claimed loop id. -/
def write_loop_begin (c : CodeGenContext) :
    List Line × CodeGenContext × Nat :=
  let g := write_get_memory_ref c
  ([Line.br (Label.lcond c.loopc), Line.labelDef (Label.lcond c.loopc)] ++
    g.1 ++
    [Line.loadCell g.2.1.regc (g.2.1.regc - 1),
     Line.icmpZero (g.2.1.regc + 1) g.2.1.regc,
     Line.brIf (g.2.1.regc + 1) (Label.lend c.loopc) (Label.lbegin c.loopc),
     Line.labelDef (Label.lbegin c.loopc)],
   { regc := g.2.1.regc + 2, loopc := c.loopc + 1 }, c.loopc)

/-- `write_loop_end` (lines 89-93). -/
def write_loop_end (loopNum : Nat) : List Line :=
  [Line.br (Label.lcond loopNum), Line.labelDef (Label.lend loopNum)]

/-- `write_code` (lines 95-110): emit each statement in order, recursing
into loop bodies between `write_loop_begin` and `write_loop_end`. -/
def write_code : List Stmt → CodeGenContext → List Line × CodeGenContext
  | [], c => ([], c)
  | Stmt.Move n :: rest, c =>
      let p := write_move c n
      let q := write_code rest p.2
      (p.1 ++ q.1, q.2)
  | Stmt.Add n :: rest, c =>
      let p := write_add c n
      let q := write_code rest p.2
      (p.1 ++ q.1, q.2)
  | Stmt.Input :: rest, c =>
      let p := write_getc c
      let q := write_code rest p.2
      (p.1 ++ q.1, q.2)
  | Stmt.Output :: rest, c =>
      let p := write_putc c
      let q := write_code rest p.2
      (p.1 ++ q.1, q.2)
  | Stmt.Loop body :: rest, c =>
      let b := write_loop_begin c
      let m := write_code body b.2.1
      let e := write_loop_end b.2.2
      let q := write_code rest m.2
      (b.1 ++ m.1 ++ e ++ q.1, q.2)

/-- `code_gen` (lines 112-127): header, translated program, footer, with
both counters starting at 0. -/
def code_gen (code : List Stmt) : List Line :=
  write_header ++ (write_code code { regc := 0, loopc := 0 }).1 ++ write_footer

/-- The destination register an emitted line writes, if any: the `%N =`
on its left-hand side. -/
def Line.dest : Line → Option Nat
  | Line.loadIdx d => some d
  | Line.zextIdx d _ => some d
  | Line.gep d _ => some d
  | Line.addIdx d _ _ => some d
  | Line.loadCell d _ => some d
  | Line.addCell d _ _ => some d
  | Line.callGetchar d => some d
  | Line.truncCell d _ => some d
  | Line.zextCell d _ => some d
  | Line.callPutchar d _ => some d
  | Line.icmpZero d _ => some d
  | _ => none

/-- All destination registers of an emitted line sequence, in emission
order. -/
def dests (ls : List Line) : List Nat := ls.filterMap Line.dest

/-- Ids of the `loop_cond` labels defined in a line sequence, in emission
order. -/
def condIds (ls : List Line) : List Nat :=
  ls.filterMap fun l =>
    match l with
    | Line.labelDef (Label.lcond n) => some n
    | _ => none

/-- Ids of the `loop_begin` labels defined in a line sequence. -/
def beginIds (ls : List Line) : List Nat :=
  ls.filterMap fun l =>
    match l with
    | Line.labelDef (Label.lbegin n) => some n
    | _ => none

/-- Ids of the `loop_end` labels defined in a line sequence. -/
def endIds (ls : List Line) : List Nat :=
  ls.filterMap fun l =>
    match l with
    | Line.labelDef (Label.lend n) => some n
    | _ => none

/-- On the single-byte source `"["`, every fuel bound is exhausted: the
recursive call for the unmatched `[` returns resume index 0 (line 91), the
caller jumps back to index 0 and re-enters the same `[` forever. -/
theorem parseGo_unmatched_bracket (fuel : Nat) :
    ∀ code, parseGo fuel [91] code 0 = none := by
  induction fuel with
  | zero => intro code; rfl
  | succ fuel ih =>
      intro code
      cases fuel with
      | zero => rfl
      | succ g =>
          show parseGo (g + 1) [91] (code ++ [Stmt.Loop []]) 0 = none
          exact ih (code ++ [Stmt.Loop []])

/-- C1: the claim states that `parse` completes over its entire input for
every finite source, with an unmatched `[` silently absorbing the rest.
The code violates this: on the source `"["` (byte 91) the scan never
terminates — the recursion returns resume index 0 instead of the input
length, so the caller re-scans from the start indefinitely.  In the
fuel-indexed embedding this is the statement that `parse` yields `none`
for every fuel bound. -/
theorem c1_parse_diverges_on_unmatched_bracket (fuel : Nat) :
    parse fuel [91] 0 = none :=
  parseGo_unmatched_bracket fuel []

/-- C9, part 1 helper: in a `]`-free source the scan can only return
through the end-of-input branch, whose resume index is 0. -/
theorem parseGo_no_rbrack_resume_zero (fuel : Nat) :
    ∀ src code i p r, 93 ∉ src →
      parseGo fuel src code i = some (p, r) → r = 0 := by
  induction fuel with
  | zero => intro src code i p r _ h; exact absurd h (by simp [parseGo])
  | succ fuel ih =>
      intro src code i p r hmem h
      rw [parseGo] at h
      by_cases hl : i < src.length
      · rw [dif_pos hl] at h
        have hmem2 : src[i] ∈ src := List.getElem_mem hl
        have h93 : ¬(src[i] = 93) := fun he => hmem (he ▸ hmem2)
        by_cases h91 : src[i] = 91
        · rw [if_pos h91] at h
          cases hsub : parseGo fuel src [] (i + 1) with
          | none => rw [hsub] at h; exact absurd h (by simp)
          | some x =>
              rw [hsub] at h
              exact ih src (code ++ [Stmt.Loop x.1]) x.2 p r hmem h
        · rw [if_neg h91, if_neg h93] at h
          cases hc : charToStmt src[i] with
          | none => rw [hc] at h; exact ih src code (i + 1) p r hmem h
          | some s =>
              rw [hc] at h
              exact ih src (foldPush code s) (i + 1) p r hmem h
      · rw [dif_neg hl] at h
        simp only [Option.some_inj, Prod.mk.injEq] at h
        exact h.2.symm

/-- C9: whenever the scan reaches the end of the input without meeting a
`]` the returned resume index is 0, not the input length.  Part 1: for any
`]`-free source every successful scan (from any start index, hence also
the recursive call made for an unmatched `[`) resumes at 0.  Part 2: a
scan entered at or past the end of the input returns its accumulator with
resume index 0 directly. -/
theorem c9_end_of_input_resume_index_zero :
    (∀ fuel src code i p r, 93 ∉ src →
        parseGo fuel src code i = some (p, r) → r = 0) ∧
    (∀ fuel src code i, src.length ≤ i →
        parseGo (fuel + 1) src code i = some (code, 0)) := by
  constructor
  · exact parseGo_no_rbrack_resume_zero
  · intro fuel src code i h
    rw [parseGo, dif_neg (Nat.not_lt.mpr h)]

theorem c9_witness :
    (0 : Nat) = 0 ∧ parseGo (0 + 1) [43] [] 5 = some ([], 0) :=
  ⟨c9_end_of_input_resume_index_zero.1 3 [43, 43] [] 0 [Stmt.Add 2] 0
      (by decide) (by rfl),
   c9_end_of_input_resume_index_zero.2 0 [43] [] 5 (by decide)⟩

/-- C2 counterexample: emitting a single `Output` from a fresh context
advances the register counter to 6, not to 5 as the claim states.  The
three lines after the address triple (`load`, `zext`, the `call` whose
result also occupies a register) all claim destinations. -/
theorem c2_counterexample_output_advances_six :
    (write_code [Stmt.Output] ⟨0, 0⟩).2.regc = 6 ∧
    ¬((write_code [Stmt.Output] ⟨0, 0⟩).2.regc = 0 + 5) := by
  refine ⟨?_, ?_⟩ <;>
    simp [write_code, write_putc, write_get_memory_ref]

/-- C2 amended: one `Output` emission consumes exactly 6 virtual
registers — 3 for the address computation plus 3 for the byte load, the
widening, and the result register of the output-primitive call; the
register counter advances by exactly 6 across each Output emission. -/
theorem c2_output_emission_consumes_six_registers (c : CodeGenContext) :
    (write_putc c).2.regc = c.regc + 6 ∧
    (write_code [Stmt.Output] c).2.regc = c.regc + 6 := by
  refine ⟨?_, ?_⟩ <;> simp [write_putc, write_get_memory_ref, write_code]

/-- Net cursor displacement denoted by a bracket-free character sequence:
`+1` per `>`, `-1` per `<`. -/
def moveDelta : List Nat → Int
  | [] => 0
  | c :: rest => (if c = 62 then 1 else if c = 60 then -1 else 0) + moveDelta rest

/-- Net cell increment denoted by a character sequence: `+1` per `+`,
`-1` per `-`. -/
def addDelta : List Nat → Int
  | [] => 0
  | c :: rest => (if c = 43 then 1 else if c = 45 then -1 else 0) + addDelta rest

theorem moveDelta_eq_counts :
    ∀ src : List Nat, (∀ c ∈ src, c = 62 ∨ c = 60) →
      moveDelta src = (src.count 62 : Int) - (src.count 60 : Int) := by
  intro src
  induction src with
  | nil => intro _; simp [moveDelta]
  | cons c rest ih =>
      intro h
      have hrest := ih (fun x hx => h x (List.mem_cons_of_mem c hx))
      rcases h c (List.mem_cons_self c rest) with rfl | rfl <;>
        simp [moveDelta, List.count_cons, hrest] <;> omega

theorem addDelta_eq_counts :
    ∀ src : List Nat, (∀ c ∈ src, c = 43 ∨ c = 45) →
      addDelta src = (src.count 43 : Int) - (src.count 45 : Int) := by
  intro src
  induction src with
  | nil => intro _; simp [addDelta]
  | cons c rest ih =>
      intro h
      have hrest := ih (fun x hx => h x (List.mem_cons_of_mem c hx))
      rcases h c (List.mem_cons_self c rest) with rfl | rfl <;>
        simp [addDelta, List.count_cons, hrest] <;> omega

/-- Scanning a region made of `>`/`<` only, with a single `Move`
accumulator, folds everything into that `Move` and ends at the
end-of-input return. -/
theorem parseGo_all_move (src : List Nat) :
    ∀ fuel i k, (∀ j, (hj : j < src.length) → i ≤ j → src[j] = 62 ∨ src[j] = 60) →
      i ≤ src.length → src.length < i + fuel →
      parseGo fuel src [Stmt.Move k] i =
        some ([Stmt.Move (k + moveDelta (src.drop i))], 0) := by
  intro fuel
  induction fuel with
  | zero => intro i k _ hle hlt; omega
  | succ fuel ih =>
      intro i k hmove hle hlt
      rw [parseGo]
      by_cases hl : i < src.length
      · rw [dif_pos hl]
        rw [List.drop_eq_getElem_cons hl]
        rcases hmove i hl (Nat.le_refl i) with hc | hc <;> rw [hc]
        · have : parseGo fuel src (foldPush [Stmt.Move k] (Stmt.Move 1)) (i + 1) =
              parseGo fuel src [Stmt.Move (k + 1)] (i + 1) := by
            simp [foldPush]
          simp only [charToStmt]
          norm_num
          rw [this, ih (i + 1) (k + 1) (fun j hj hij => hmove j hj (by omega))
              (by omega) (by omega)]
          simp [moveDelta]
          ring
        · have : parseGo fuel src (foldPush [Stmt.Move k] (Stmt.Move (-1))) (i + 1) =
              parseGo fuel src [Stmt.Move (k + (-1))] (i + 1) := by
            simp [foldPush]
          simp only [charToStmt]
          norm_num
          rw [this, ih (i + 1) (k + (-1)) (fun j hj hij => hmove j hj (by omega))
              (by omega) (by omega)]
          simp [moveDelta]
          ring
      · rw [dif_neg hl]
        have : i = src.length := by omega
        subst this
        simp [moveDelta]

/-- Scanning a region made of `+`/`-` only, with a single `Add`
accumulator, folds everything into that `Add` and ends at the
end-of-input return. -/
theorem parseGo_all_add (src : List Nat) :
    ∀ fuel i k, (∀ j, (hj : j < src.length) → i ≤ j → src[j] = 43 ∨ src[j] = 45) →
      i ≤ src.length → src.length < i + fuel →
      parseGo fuel src [Stmt.Add k] i =
        some ([Stmt.Add (k + addDelta (src.drop i))], 0) := by
  intro fuel
  induction fuel with
  | zero => intro i k _ hle hlt; omega
  | succ fuel ih =>
      intro i k hadd hle hlt
      rw [parseGo]
      by_cases hl : i < src.length
      · rw [dif_pos hl]
        rw [List.drop_eq_getElem_cons hl]
        rcases hadd i hl (Nat.le_refl i) with hc | hc <;> rw [hc]
        · have : parseGo fuel src (foldPush [Stmt.Add k] (Stmt.Add 1)) (i + 1) =
              parseGo fuel src [Stmt.Add (k + 1)] (i + 1) := by
            simp [foldPush]
          simp only [charToStmt]
          norm_num
          rw [this, ih (i + 1) (k + 1) (fun j hj hij => hadd j hj (by omega))
              (by omega) (by omega)]
          simp [addDelta]
          ring
        · have : parseGo fuel src (foldPush [Stmt.Add k] (Stmt.Add (-1))) (i + 1) =
              parseGo fuel src [Stmt.Add (k + (-1))] (i + 1) := by
            simp [foldPush]
          simp only [charToStmt]
          norm_num
          rw [this, ih (i + 1) (k + (-1)) (fun j hj hij => hadd j hj (by omega))
              (by omega) (by omega)]
          simp [addDelta]
          ring
      · rw [dif_neg hl]
        have : i = src.length := by omega
        subst this
        simp [addDelta]

/-- C6: a non-empty bracket-free source of `>`/`<` bytes parses to a
single `Move` whose magnitude is the count of `>` minus the count of `<`;
analogously a non-empty source of `+`/`-` bytes parses to a single `Add`
whose magnitude is the count of `+` minus the count of `-`. -/
theorem c6_magnitude_conservation :
    (∀ src : List Nat, src ≠ [] → (∀ c ∈ src, c = 62 ∨ c = 60) →
        parse (src.length + 1) src 0 =
          some ([Stmt.Move ((src.count 62 : Int) - (src.count 60 : Int))], 0)) ∧
    (∀ src : List Nat, src ≠ [] → (∀ c ∈ src, c = 43 ∨ c = 45) →
        parse (src.length + 1) src 0 =
          some ([Stmt.Add ((src.count 43 : Int) - (src.count 45 : Int))], 0)) := by
  constructor
  · intro src hne hall
    obtain ⟨c, rest, rfl⟩ := List.exists_cons_of_ne_nil hne
    have hrest : moveDelta rest = (rest.count 62 : Int) - (rest.count 60 : Int) :=
      moveDelta_eq_counts rest (fun x hx => hall x (List.mem_cons_of_mem _ hx))
    rw [parse, parseGo]
    have h0 : 0 < (c :: rest).length := by simp
    rw [dif_pos h0]
    rcases hall c (List.mem_cons_self c rest) with rfl | rfl
    · simp only [List.getElem_cons_zero, charToStmt]
      norm_num
      rw [show foldPush [] (Stmt.Move 1) = [Stmt.Move 1] from rfl]
      rw [parseGo_all_move (62 :: rest) (rest.length + 1) 1 1
          (fun j hj hij => hall _ (List.getElem_mem hj)) (by simp) (by simp)]
      rw [show (62 :: rest).drop 1 = rest from rfl, hrest]
      simp only [Option.some.injEq, Prod.mk.injEq, List.cons.injEq,
        Stmt.Move.injEq, and_true]
      omega
    · simp only [List.getElem_cons_zero, charToStmt]
      norm_num
      rw [show foldPush [] (Stmt.Move (-1)) = [Stmt.Move (-1)] from rfl]
      rw [parseGo_all_move (60 :: rest) (rest.length + 1) 1 (-1)
          (fun j hj hij => hall _ (List.getElem_mem hj)) (by simp) (by simp)]
      rw [show (60 :: rest).drop 1 = rest from rfl, hrest]
      simp only [Option.some.injEq, Prod.mk.injEq, List.cons.injEq,
        Stmt.Move.injEq, and_true]
      omega
  · intro src hne hall
    obtain ⟨c, rest, rfl⟩ := List.exists_cons_of_ne_nil hne
    have hrest : addDelta rest = (rest.count 43 : Int) - (rest.count 45 : Int) :=
      addDelta_eq_counts rest (fun x hx => hall x (List.mem_cons_of_mem _ hx))
    rw [parse, parseGo]
    have h0 : 0 < (c :: rest).length := by simp
    rw [dif_pos h0]
    rcases hall c (List.mem_cons_self c rest) with rfl | rfl
    · simp only [List.getElem_cons_zero, charToStmt]
      norm_num
      rw [show foldPush [] (Stmt.Add 1) = [Stmt.Add 1] from rfl]
      rw [parseGo_all_add (43 :: rest) (rest.length + 1) 1 1
          (fun j hj hij => hall _ (List.getElem_mem hj)) (by simp) (by simp)]
      rw [show (43 :: rest).drop 1 = rest from rfl, hrest]
      simp only [Option.some.injEq, Prod.mk.injEq, List.cons.injEq,
        Stmt.Add.injEq, and_true]
      omega
    · simp only [List.getElem_cons_zero, charToStmt]
      norm_num
      rw [show foldPush [] (Stmt.Add (-1)) = [Stmt.Add (-1)] from rfl]
      rw [parseGo_all_add (45 :: rest) (rest.length + 1) 1 (-1)
          (fun j hj hij => hall _ (List.getElem_mem hj)) (by simp) (by simp)]
      rw [show (45 :: rest).drop 1 = rest from rfl, hrest]
      simp only [Option.some.injEq, Prod.mk.injEq, List.cons.injEq,
        Stmt.Add.injEq, and_true]
      omega

theorem c6_witness :
    parse 4 [62, 62, 60] 0 =
      some ([Stmt.Move (([62, 62, 60].count 62 : Int) -
        ([62, 62, 60].count 60 : Int))], 0) ∧
    parse 4 [43, 45, 45] 0 =
      some ([Stmt.Add (([43, 45, 45].count 43 : Int) -
        ([43, 45, 45].count 45 : Int))], 0) :=
  ⟨c6_magnitude_conservation.1 [62, 62, 60] (by decide) (by decide),
   c6_magnitude_conservation.2 [43, 45, 45] (by decide) (by decide)⟩

/-- A statement is primitive (not a loop). -/
def isPrim : Stmt → Bool
  | Stmt.Loop _ => false
  | _ => true

/-- The nested part of the folding invariant for one statement: loops
carry folded bodies, primitives carry nothing. -/
def innerFolded : Stmt → Bool
  | Stmt.Loop body => foldedB body
  | _ => true

theorem charToStmt_isPrim (c : Nat) (s : Stmt) :
    charToStmt c = some s → isPrim s = true := by
  intro h
  unfold charToStmt at h
  split_ifs at h <;> cases h <;> rfl

theorem foldedB_cons_cons (a b : Stmt) (l : List Stmt) :
    foldedB (a :: b :: l) =
      (!mergeable a b && innerFolded a && foldedB (b :: l)) := by
  cases a <;> simp [foldedB, innerFolded, mergeable]

theorem foldedB_singleton (a : Stmt) : foldedB [a] = innerFolded a := by
  cases a <;> simp [foldedB, innerFolded]

/-- `foldPush` keeps the head of a non-empty list, up to a payload change
that does not affect `mergeable`. -/
theorem foldPush_head (b : Stmt) (rest : List Stmt) (s : Stmt) :
    ∃ b' rest', foldPush (b :: rest) s = b' :: rest' ∧
      (∀ a, mergeable a b' = mergeable a b) ∧ innerFolded b' = innerFolded b := by
  cases rest with
  | nil =>
      cases b <;> cases s <;>
        exact ⟨_, _, rfl, fun a => by cases a <;> rfl, rfl⟩
  | cons b2 rest2 =>
      exact ⟨b, foldPush (b2 :: rest2) s, by simp [foldPush], fun a => rfl, rfl⟩

/-- `foldPush` with a primitive statement preserves the folding
invariant. -/
theorem foldedB_foldPush (s : Stmt) (hs : isPrim s = true) :
    ∀ code, foldedB code = true → foldedB (foldPush code s) = true := by
  intro code
  induction code with
  | nil =>
      intro _
      cases s <;> simp_all [foldPush, foldedB, isPrim]
  | cons a tail ih =>
      intro hcode
      cases tail with
      | nil =>
          cases a <;> cases s <;>
            simp_all [foldPush, foldedB, mergeable, isPrim]
      | cons b rest =>
          rw [foldedB_cons_cons] at hcode
          simp only [Bool.and_eq_true, Bool.not_eq_eq_eq_not, Bool.not_true] at hcode
          obtain ⟨⟨hmerge, hinner⟩, htail⟩ := hcode
          obtain ⟨b', rest', heq, hkind, hinner'⟩ := foldPush_head b rest s
          have hstep : foldPush (a :: b :: rest) s = a :: foldPush (b :: rest) s := by
            simp [foldPush]
          rw [hstep, heq, foldedB_cons_cons, hkind a, ← heq, ih htail]
          simp [hmerge, hinner]

/-- Appending a `Loop` with a folded body preserves the folding
invariant (a `Loop` merges with nothing). -/
theorem foldedB_append_loop (lc : List Stmt) (hlc : foldedB lc = true) :
    ∀ code, foldedB code = true → foldedB (code ++ [Stmt.Loop lc]) = true := by
  intro code
  induction code with
  | nil => intro _; simpa [foldedB] using hlc
  | cons a tail ih =>
      intro hcode
      cases tail with
      | nil =>
          rw [foldedB_singleton] at hcode
          show foldedB (a :: [Stmt.Loop lc]) = true
          rw [foldedB_cons_cons]
          have hm : mergeable a (Stmt.Loop lc) = false := by cases a <;> rfl
          rw [hm, hcode, foldedB_singleton]
          simp [innerFolded, hlc]
      | cons b rest =>
          rw [foldedB_cons_cons] at hcode
          simp only [Bool.and_eq_true, Bool.not_eq_eq_eq_not, Bool.not_true] at hcode
          obtain ⟨⟨hmerge, hinner⟩, htail⟩ := hcode
          show foldedB (a :: ((b :: rest) ++ [Stmt.Loop lc])) = true
          rw [List.cons_append, foldedB_cons_cons]
          rw [List.cons_append] at ih
          simp [hmerge, hinner, ih htail]

/-- Every `some` result of the scan carries a folded program, given a
folded accumulator. -/
theorem parseGo_folded (fuel : Nat) :
    ∀ src code i p r, foldedB code = true →
      parseGo fuel src code i = some (p, r) → foldedB p = true := by
  induction fuel with
  | zero => intro src code i p r _ h; exact absurd h (by simp [parseGo])
  | succ fuel ih =>
      intro src code i p r hcode h
      rw [parseGo] at h
      by_cases hl : i < src.length
      · rw [dif_pos hl] at h
        by_cases h91 : src[i] = 91
        · rw [if_pos h91] at h
          cases hsub : parseGo fuel src [] (i + 1) with
          | none => rw [hsub] at h; exact absurd h (by simp)
          | some x =>
              rw [hsub] at h
              have hx : foldedB x.1 = true := ih src [] (i + 1) x.1 x.2
                (by simp [foldedB]) (by rw [hsub])
              exact ih src (code ++ [Stmt.Loop x.1]) x.2 p r
                (foldedB_append_loop x.1 hx code hcode) h
        · rw [if_neg h91] at h
          by_cases h93 : src[i] = 93
          · rw [if_pos h93] at h
            simp only [Option.some_inj, Prod.mk.injEq] at h
            exact h.1 ▸ hcode
          · rw [if_neg h93] at h
            cases hc : charToStmt src[i] with
            | none => rw [hc] at h; exact ih src code (i + 1) p r hcode h
            | some s =>
                rw [hc] at h
                exact ih src (foldPush code s) (i + 1) p r
                  (foldedB_foldPush s (charToStmt_isPrim _ _ hc) code hcode) h
      · rw [dif_neg hl] at h
        simp only [Option.some_inj, Prod.mk.injEq] at h
        exact h.1 ▸ hcode

/-- C3: every `Program` returned by `parse` (from any start index, any
fuel) satisfies the folding invariant: no two adjacent sibling statements,
at the top level or in any `Loop` body at any depth, are both `Move` or
both `Add`. -/
theorem c3_parse_result_folded (fuel : Nat) (src : List Nat) (i : Nat)
    (p : List Stmt) (r : Nat) (h : parse fuel src i = some (p, r)) :
    foldedB p = true :=
  parseGo_folded fuel src [] i p r (by simp [foldedB]) h

theorem c3_witness : foldedB [Stmt.Move 2, Stmt.Add 1] = true :=
  c3_parse_result_folded 4 [62, 62, 43] 0 [Stmt.Move 2, Stmt.Add 1] 0 (by rfl)

/-- C8: the source `"-."` parses to `Program[Add(-1), Output]`, and
executing that program from a fresh all-zero state sends the single byte
255 to the output sink: cell arithmetic wraps modulo 256 in both
directions. -/
theorem c8_wraparound_scenario :
    parse 3 [45, 46] 0 = some ([Stmt.Add (-1), Stmt.Output], 0) ∧
    (execute 3 [Stmt.Add (-1), Stmt.Output] (freshState [])).map
      ExecState.out = some [255] := by
  exact ⟨rfl, rfl⟩

/-- `tmod` negates with its first argument. -/
theorem tmod_neg_arg (a b : Int) : Int.tmod (-a) b = -(Int.tmod a b) := by
  rw [Int.tmod_def, Int.tmod_def, Int.neg_tdiv]
  ring

/-- The renormalisation `modulo v 256` of the interpreter always lands in
`[0, 256)`. -/
theorem modulo_mem_range (v : Int) :
    0 ≤ modulo v 256 ∧ modulo v 256 < 256 := by
  have h1 : Int.tmod v 256 < 256 := Int.tmod_lt_of_pos v (by norm_num)
  have h2 : -256 < Int.tmod v 256 := by
    rcases le_or_lt 0 v with hv | hv
    · have := Int.tmod_nonneg (a := v) 256 hv
      omega
    · have hneg : Int.tmod v 256 = -(Int.tmod (-v) 256) := by
        rw [← tmod_neg_arg, neg_neg]
      have h3 : Int.tmod (-v) 256 < 256 := Int.tmod_lt_of_pos (-v) (by norm_num)
      have h4 : 0 ≤ Int.tmod (-v) 256 := Int.tmod_nonneg 256 (by omega)
      omega
  rw [modulo]
  exact ⟨Int.tmod_nonneg 256 (by omega), Int.tmod_lt_of_pos _ (by norm_num)⟩

/-- All tape cells of a state lie in the byte range `[0, 256)`. -/
def cellsInRange (st : ExecState) : Prop :=
  ∀ j, 0 ≤ st.tape j ∧ st.tape j < 256

theorem execGo_preserves_cells (fuel : Nat) :
    ∀ code idx st st', cellsInRange st →
      execGo fuel code idx st = some st' → cellsInRange st' := by
  induction fuel with
  | zero => intro code idx st st' _ h; exact absurd h (by simp [execGo])
  | succ fuel ih =>
      intro code idx st st' hst h
      rw [execGo] at h
      by_cases hl : idx < code.length
      · rw [dif_pos hl] at h
        cases hc : code[idx] with
        | Move n =>
            simp only [hc] at h
            exact ih code (idx + 1) { st with ptr := st.ptr + n } st' hst h
        | Add n =>
            simp only [hc] at h
            by_cases hp : ptrOk st.ptr
            · rw [if_pos hp] at h
              refine ih code (idx + 1) _ st' ?_ h
              intro j
              show 0 ≤ setTape st.tape _ _ j ∧ setTape st.tape _ _ j < 256
              unfold setTape
              by_cases hj : j = st.ptr.toNat
              · simp only [hj, if_pos rfl]
                exact modulo_mem_range _
              · simp only [if_neg hj]
                exact hst j
            · rw [if_neg hp] at h
              exact absurd h (by simp)
        | Input =>
            simp only [hc] at h
            cases hi : st.inp with
            | nil => simp only [hi] at h; exact absurd h (by simp)
            | cons b rest =>
                simp only [hi] at h
                by_cases hp : ptrOk st.ptr
                · rw [if_pos hp] at h
                  refine ih code (idx + 1) _ st' ?_ h
                  intro j
                  show 0 ≤ setTape st.tape _ _ j ∧ setTape st.tape _ _ j < 256
                  unfold setTape
                  by_cases hj : j = st.ptr.toNat
                  · simp only [hj, if_pos rfl]
                    exact modulo_mem_range _
                  · simp only [if_neg hj]
                    exact hst j
                · rw [if_neg hp] at h
                  exact absurd h (by simp)
        | Output =>
            simp only [hc] at h
            by_cases hp : ptrOk st.ptr
            · rw [if_pos hp] at h
              refine ih code (idx + 1) _ st' ?_ h
              exact hst
            · rw [if_neg hp] at h
              exact absurd h (by simp)
        | Loop body =>
            simp only [hc] at h
            by_cases hp : ptrOk st.ptr
            · rw [if_pos hp] at h
              by_cases hcell : 0 < st.tape st.ptr.toNat
              · rw [if_pos hcell] at h
                cases hsub : execGo fuel body 0 st with
                | none => rw [hsub] at h; exact absurd h (by simp)
                | some st1 =>
                    rw [hsub] at h
                    exact ih code idx st1 st' (ih body 0 st st1 hst hsub) h
              · rw [if_neg hcell] at h
                exact ih code (idx + 1) st st' hst h
            · rw [if_neg hp] at h
              exact absurd h (by simp)
      · rw [dif_neg hl] at h
        simp only [Option.some_inj] at h
        exact h ▸ hst

/-- C10: starting from any state whose tape cells all lie in `[0, 255]`
(in particular the fresh all-zero state), every state `execute` can reach
still has all cells in `[0, 255]` — `Add` and `Input` renormalise modulo
256, `Move` and `Output` never write a cell — and on such states the
executor's loop guard `cell > 0` coincides with the `cell ≠ 0` loop
condition. -/
theorem c10_cells_stay_in_byte_range :
    (∀ fuel code idx st st', cellsInRange st →
        execGo fuel code idx st = some st' → cellsInRange st') ∧
    (∀ st : ExecState, cellsInRange st →
        ∀ j, (0 < st.tape j ↔ st.tape j ≠ 0)) := by
  refine ⟨execGo_preserves_cells, fun st hst j => ?_⟩
  have := hst j
  omega

/-- The state after running the single statement `Add 1` on a fresh
state, used to instantiate the C10 theorem concretely. -/
def afterAddOne : ExecState :=
  { ptr := 0
    tape := setTape (fun _ => 0) 0 (modulo (0 + 1) 256)
    inp := []
    out := [] }

theorem c10_witness :
    cellsInRange afterAddOne ∧
    (0 < afterAddOne.tape 0 ↔ afterAddOne.tape 0 ≠ 0) := by
  have hfresh : cellsInRange (freshState []) := fun j => by
    simp [freshState]
  have h1 : cellsInRange afterAddOne :=
    c10_cells_stay_in_byte_range.1 2 [Stmt.Add 1] 0 (freshState [])
      afterAddOne hfresh rfl
  exact ⟨h1, c10_cells_stay_in_byte_range.2 afterAddOne h1 0⟩

theorem dests_append (l₁ l₂ : List Line) :
    dests (l₁ ++ l₂) = dests l₁ ++ dests l₂ :=
  List.filterMap_append l₁ l₂ Line.dest

/-- Register discipline of one emitted chunk: the counter only grows, all
destination registers lie in `[regc before, regc after)`, and they are
strictly increasing in emission order. -/
def RegInv (c c' : CodeGenContext) (ls : List Line) : Prop :=
  c.regc ≤ c'.regc ∧ (∀ d ∈ dests ls, c.regc ≤ d ∧ d < c'.regc) ∧
  List.Pairwise (· < ·) (dests ls)

theorem regInv_comp {c c₁ c₂ : CodeGenContext} {ls₁ ls₂ : List Line}
    (h₁ : RegInv c c₁ ls₁) (h₂ : RegInv c₁ c₂ ls₂) :
    RegInv c c₂ (ls₁ ++ ls₂) := by
  obtain ⟨m₁, b₁, p₁⟩ := h₁
  obtain ⟨m₂, b₂, p₂⟩ := h₂
  refine ⟨by omega, ?_, ?_⟩
  · intro d hd
    rw [dests_append] at hd
    rcases List.mem_append.mp hd with hd | hd
    · have := b₁ d hd; omega
    · have := b₂ d hd; omega
  · rw [dests_append, List.pairwise_append]
    refine ⟨p₁, p₂, fun a ha b hb => ?_⟩
    have := (b₁ a ha).2
    have := (b₂ b hb).1
    omega

/-- A chunk whose destinations are the consecutive registers
`regc, …, regc + k - 1`, advancing the counter by `k`, satisfies the
register discipline. -/
theorem regInv_range (c c' : CodeGenContext) (ls : List Line) (k : Nat)
    (hd : dests ls = List.range' c.regc k) (hr : c'.regc = c.regc + k) :
    RegInv c c' ls := by
  refine ⟨by omega, ?_, ?_⟩
  · intro d hmem
    rw [hd, List.mem_range'_1] at hmem
    omega
  · rw [hd]
    exact List.pairwise_lt_range' c.regc k

theorem regInv_write_move (c : CodeGenContext) (n : Int) :
    RegInv c (write_move c n).2 (write_move c n).1 :=
  regInv_range c _ _ 2 rfl rfl

theorem regInv_write_add (c : CodeGenContext) (n : Int) :
    RegInv c (write_add c n).2 (write_add c n).1 :=
  regInv_range c _ _ 5 rfl rfl

theorem regInv_write_getc (c : CodeGenContext) :
    RegInv c (write_getc c).2 (write_getc c).1 :=
  regInv_range c _ _ 5 rfl rfl

theorem regInv_write_putc (c : CodeGenContext) :
    RegInv c (write_putc c).2 (write_putc c).1 :=
  regInv_range c _ _ 6 rfl rfl

theorem regInv_write_loop_begin (c : CodeGenContext) :
    RegInv c (write_loop_begin c).2.1 (write_loop_begin c).1 :=
  regInv_range c _ _ 5 rfl rfl

theorem regInv_write_loop_end (c : CodeGenContext) (k : Nat) :
    RegInv c c (write_loop_end k) :=
  regInv_range c c _ 0 rfl rfl

theorem write_code_regInv :
    ∀ code c, RegInv c (write_code code c).2 (write_code code c).1 := by
  intro code c
  induction code, c using write_code.induct with
  | case1 c =>
      simp only [write_code]
      exact regInv_range c c [] 0 rfl rfl
  | case2 n rest c p ih =>
      simp only [write_code]
      exact regInv_comp (regInv_write_move c n) ih
  | case3 n rest c p ih =>
      simp only [write_code]
      exact regInv_comp (regInv_write_add c n) ih
  | case4 rest c p ih =>
      simp only [write_code]
      exact regInv_comp (regInv_write_getc c) ih
  | case5 rest c p ih =>
      simp only [write_code]
      exact regInv_comp (regInv_write_putc c) ih
  | case6 body rest c b m ih0 ih1 ih2 =>
      simp only [write_code]
      exact regInv_comp (regInv_comp (regInv_comp
        (regInv_write_loop_begin c) ih1) (regInv_write_loop_end _ _)) ih2

/-- C4: across one generation run, every virtual register used as an
instruction destination in the emitted lines is written exactly once and
the destination numbers strictly increase in emission order; the register
counter of the context is never decremented across any `write_code` call
(in particular it is never rolled back when leaving a nested loop
scope). -/
theorem c4_register_single_assignment :
    (∀ program : List Stmt,
        List.Pairwise (· < ·) (dests (code_gen program)) ∧
        (dests (code_gen program)).Nodup) ∧
    (∀ code c, c.regc ≤ (write_code code c).2.regc) := by
  constructor
  · intro program
    have h := write_code_regInv program ⟨0, 0⟩
    have hg : dests (code_gen program) =
        dests (write_code program ⟨0, 0⟩).1 := by
      rw [code_gen, dests_append, dests_append]
      simp [dests, write_header, write_footer, Line.dest]
    rw [hg]
    exact ⟨h.2.2, h.2.2.imp Nat.ne_of_lt⟩
  · intro code c
    exact (write_code_regInv code c).1

theorem condIds_append (l₁ l₂ : List Line) :
    condIds (l₁ ++ l₂) = condIds l₁ ++ condIds l₂ :=
  List.filterMap_append l₁ l₂ _

theorem beginIds_append (l₁ l₂ : List Line) :
    beginIds (l₁ ++ l₂) = beginIds l₁ ++ beginIds l₂ :=
  List.filterMap_append l₁ l₂ _

theorem endIds_append (l₁ l₂ : List Line) :
    endIds (l₁ ++ l₂) = endIds l₁ ++ endIds l₂ :=
  List.filterMap_append l₁ l₂ _

/-- Label discipline of one emitted chunk: the loop counter only grows,
all defined `loop_cond`/`loop_begin`/`loop_end` label ids lie in
`[loopc before, loopc after)`, cond and begin ids strictly increase in
emission order, and end ids never repeat. -/
def LabInv (c c' : CodeGenContext) (ls : List Line) : Prop :=
  c.loopc ≤ c'.loopc ∧
  (∀ n ∈ condIds ls, c.loopc ≤ n ∧ n < c'.loopc) ∧
  List.Pairwise (· < ·) (condIds ls) ∧
  (∀ n ∈ beginIds ls, c.loopc ≤ n ∧ n < c'.loopc) ∧
  List.Pairwise (· < ·) (beginIds ls) ∧
  (∀ n ∈ endIds ls, c.loopc ≤ n ∧ n < c'.loopc) ∧
  (endIds ls).Nodup

theorem labInv_comp {c c₁ c₂ : CodeGenContext} {ls₁ ls₂ : List Line}
    (h₁ : LabInv c c₁ ls₁) (h₂ : LabInv c₁ c₂ ls₂) :
    LabInv c c₂ (ls₁ ++ ls₂) := by
  obtain ⟨m₁, cb₁, cp₁, bb₁, bp₁, eb₁, en₁⟩ := h₁
  obtain ⟨m₂, cb₂, cp₂, bb₂, bp₂, eb₂, en₂⟩ := h₂
  refine ⟨by omega, ?_, ?_, ?_, ?_, ?_, ?_⟩
  · intro n hn
    rw [condIds_append] at hn
    rcases List.mem_append.mp hn with hn | hn
    · have := cb₁ n hn; omega
    · have := cb₂ n hn; omega
  · rw [condIds_append, List.pairwise_append]
    refine ⟨cp₁, cp₂, fun a ha b hb => ?_⟩
    have := (cb₁ a ha).2
    have := (cb₂ b hb).1
    omega
  · intro n hn
    rw [beginIds_append] at hn
    rcases List.mem_append.mp hn with hn | hn
    · have := bb₁ n hn; omega
    · have := bb₂ n hn; omega
  · rw [beginIds_append, List.pairwise_append]
    refine ⟨bp₁, bp₂, fun a ha b hb => ?_⟩
    have := (bb₁ a ha).2
    have := (bb₂ b hb).1
    omega
  · intro n hn
    rw [endIds_append] at hn
    rcases List.mem_append.mp hn with hn | hn
    · have := eb₁ n hn; omega
    · have := eb₂ n hn; omega
  · rw [endIds_append, List.nodup_append]
    refine ⟨en₁, en₂, fun a ha hb => ?_⟩
    have := (eb₁ a ha).2
    have := (eb₂ a hb).1
    omega

/-- A chunk that defines no labels and does not touch the loop counter
satisfies the label discipline. -/
theorem labInv_nil (c c' : CodeGenContext) (ls : List Line)
    (h1 : condIds ls = []) (h2 : beginIds ls = []) (h3 : endIds ls = [])
    (h4 : c'.loopc = c.loopc) : LabInv c c' ls := by
  refine ⟨by omega, ?_, ?_, ?_, ?_, ?_, ?_⟩ <;>
    simp [h1, h2, h3]

theorem labInv_write_loop_begin (c : CodeGenContext) :
    LabInv c (write_loop_begin c).2.1 (write_loop_begin c).1 := by
  have hc : condIds (write_loop_begin c).1 = [c.loopc] := rfl
  have hb : beginIds (write_loop_begin c).1 = [c.loopc] := rfl
  have he : endIds (write_loop_begin c).1 = [] := rfl
  have hl : (write_loop_begin c).2.1.loopc = c.loopc + 1 := rfl
  refine ⟨by omega, ?_, ?_, ?_, ?_, ?_, ?_⟩ <;>
    simp [hc, hb, he, hl]

theorem write_code_labInv :
    ∀ code c, LabInv c (write_code code c).2 (write_code code c).1 := by
  intro code c
  induction code, c using write_code.induct with
  | case1 c =>
      simp only [write_code]
      exact labInv_nil c c [] rfl rfl rfl rfl
  | case2 n rest c p ih =>
      simp only [write_code]
      exact labInv_comp
        (labInv_nil c (write_move c n).2 (write_move c n).1 rfl rfl rfl rfl) ih
  | case3 n rest c p ih =>
      simp only [write_code]
      exact labInv_comp
        (labInv_nil c (write_add c n).2 (write_add c n).1 rfl rfl rfl rfl) ih
  | case4 rest c p ih =>
      simp only [write_code]
      exact labInv_comp
        (labInv_nil c (write_getc c).2 (write_getc c).1 rfl rfl rfl rfl) ih
  | case5 rest c p ih =>
      simp only [write_code]
      exact labInv_comp
        (labInv_nil c (write_putc c).2 (write_putc c).1 rfl rfl rfl rfl) ih
  | case6 body rest c b m ih0 ih1 ih2 =>
      simp only [write_code]
      rw [show m = write_code body b.2.1 from rfl,
          show b = write_loop_begin c from rfl] at ih2
      obtain ⟨hm1, cb1, cp1, bb1, bp1, eb1, en1⟩ := ih1
      obtain ⟨hm2, cb2, cp2, bb2, bp2, eb2, en2⟩ := ih2
      have hBl : (write_loop_begin c).2.1.loopc = c.loopc + 1 := rfl
      refine ⟨by omega, ?_, ?_, ?_, ?_, ?_, ?_⟩
      · intro n hn
        rw [condIds_append, condIds_append, condIds_append] at hn
        rw [show condIds (write_loop_begin c).1 = [c.loopc] from rfl,
            show condIds (write_loop_end (write_loop_begin c).2.2) = [] from rfl]
          at hn
        simp only [List.append_nil, List.mem_append, List.mem_singleton] at hn
        rcases hn with (rfl | hn) | hn
        · omega
        · have := cb1 n hn; omega
        · have := cb2 n hn; omega
      · rw [condIds_append, condIds_append, condIds_append]
        rw [show condIds (write_loop_begin c).1 = [c.loopc] from rfl,
            show condIds (write_loop_end (write_loop_begin c).2.2) = [] from rfl,
            List.append_nil]
        rw [List.pairwise_append]
        refine ⟨?_, cp2, ?_⟩
        · rw [List.pairwise_append]
          refine ⟨by simp, cp1, ?_⟩
          intro a ha e he
          simp only [List.mem_singleton] at ha
          subst ha
          have := (cb1 e he).1
          omega
        · intro a ha e he
          rcases List.mem_append.mp ha with ha | ha
          · simp only [List.mem_singleton] at ha
            subst ha
            have := (cb2 e he).1
            omega
          · have := (cb1 a ha).2
            have := (cb2 e he).1
            omega
      · intro n hn
        rw [beginIds_append, beginIds_append, beginIds_append] at hn
        rw [show beginIds (write_loop_begin c).1 = [c.loopc] from rfl,
            show beginIds (write_loop_end (write_loop_begin c).2.2) = [] from rfl]
          at hn
        simp only [List.append_nil, List.mem_append, List.mem_singleton] at hn
        rcases hn with (rfl | hn) | hn
        · omega
        · have := bb1 n hn; omega
        · have := bb2 n hn; omega
      · rw [beginIds_append, beginIds_append, beginIds_append]
        rw [show beginIds (write_loop_begin c).1 = [c.loopc] from rfl,
            show beginIds (write_loop_end (write_loop_begin c).2.2) = [] from rfl,
            List.append_nil]
        rw [List.pairwise_append]
        refine ⟨?_, bp2, ?_⟩
        · rw [List.pairwise_append]
          refine ⟨by simp, bp1, ?_⟩
          intro a ha e he
          simp only [List.mem_singleton] at ha
          subst ha
          have := (bb1 e he).1
          omega
        · intro a ha e he
          rcases List.mem_append.mp ha with ha | ha
          · simp only [List.mem_singleton] at ha
            subst ha
            have := (bb2 e he).1
            omega
          · have := (bb1 a ha).2
            have := (bb2 e he).1
            omega
      · intro n hn
        rw [endIds_append, endIds_append, endIds_append] at hn
        rw [show endIds (write_loop_begin c).1 = [] from rfl,
            show endIds (write_loop_end (write_loop_begin c).2.2) = [c.loopc]
              from rfl, List.nil_append] at hn
        simp only [List.mem_append, List.mem_singleton] at hn
        rcases hn with (hn | rfl) | hn
        · have := eb1 n hn; omega
        · omega
        · have := eb2 n hn; omega
      · rw [endIds_append, endIds_append, endIds_append]
        rw [show endIds (write_loop_begin c).1 = [] from rfl,
            show endIds (write_loop_end (write_loop_begin c).2.2) = [c.loopc]
              from rfl, List.nil_append]
        rw [List.nodup_append]
        refine ⟨?_, en2, ?_⟩
        · rw [List.nodup_append]
          refine ⟨en1, by simp, ?_⟩
          intro a ha hb
          simp only [List.mem_singleton] at hb
          subst hb
          have := (eb1 _ ha).1
          omega
        · intro a ha hb
          rcases List.mem_append.mp ha with ha | ha
          · have := (eb1 a ha).2
            have := (eb2 a hb).1
            omega
          · simp only [List.mem_singleton] at ha
            subst ha
            have := (eb2 _ hb).1
            omega

/-- C5: across one generation run, loop ids are assigned globally
monotonically (the `loop_cond` label ids strictly increase in emission
order) and never repeat: the defined `loop_cond`, `loop_begin` and
`loop_end` label families are each duplicate-free, so the label triples of
two loops never collide, even for structurally identical loops; the loop
counter is never decremented across any `write_code` call. -/
theorem c5_loop_label_uniqueness :
    (∀ program : List Stmt,
        List.Pairwise (· < ·) (condIds (code_gen program)) ∧
        (condIds (code_gen program)).Nodup ∧
        (beginIds (code_gen program)).Nodup ∧
        (endIds (code_gen program)).Nodup) ∧
    (∀ code c, c.loopc ≤ (write_code code c).2.loopc) := by
  constructor
  · intro program
    obtain ⟨hm, cb, cp, bb, bp, eb, en⟩ := write_code_labInv program ⟨0, 0⟩
    have hc : condIds (code_gen program) =
        condIds (write_code program ⟨0, 0⟩).1 := by
      rw [code_gen, condIds_append, condIds_append]
      simp [condIds, write_header, write_footer]
    have hb : beginIds (code_gen program) =
        beginIds (write_code program ⟨0, 0⟩).1 := by
      rw [code_gen, beginIds_append, beginIds_append]
      simp [beginIds, write_header, write_footer]
    have he : endIds (code_gen program) =
        endIds (write_code program ⟨0, 0⟩).1 := by
      rw [code_gen, endIds_append, endIds_append]
      simp [endIds, write_header, write_footer]
    refine ⟨?_, ?_, ?_, ?_⟩
    · rw [hc]; exact cp
    · rw [hc]; exact cp.imp Nat.ne_of_lt
    · rw [hb]; exact bp.imp Nat.ne_of_lt
    · rw [he]; exact en
  · intro code c
    exact (write_code_labInv code c).1

/-- A clean scan (no end-of-input event anywhere in the call tree) always
returns a resume index strictly beyond its start index: every clean return
comes from a `]`. -/
theorem parseGoB_clean_progress (fuel : Nat) :
    ∀ src code i p r, parseGoB fuel src code i = some (p, r, false) →
      i < r := by
  induction fuel with
  | zero => intro src code i p r h; exact absurd h (by simp [parseGoB])
  | succ fuel ih =>
      intro src code i p r h
      rw [parseGoB] at h
      by_cases hl : i < src.length
      · rw [dif_pos hl] at h
        by_cases h91 : src[i] = 91
        · rw [if_pos h91] at h
          cases hsub : parseGoB fuel src [] (i + 1) with
          | none => simp only [hsub] at h; exact absurd h (by simp)
          | some x =>
              obtain ⟨lc, r₁, b₁⟩ := x
              simp only [hsub] at h
              cases hcont : parseGoB fuel src (code ++ [Stmt.Loop lc]) r₁ with
              | none => simp only [hcont] at h; exact absurd h (by simp)
              | some y =>
                  obtain ⟨p₂, r₂, b₂⟩ := y
                  simp only [hcont, Option.some.injEq, Prod.mk.injEq] at h
                  obtain ⟨hp, hr, hb⟩ := h
                  rcases Bool.or_eq_false_iff.mp hb with ⟨hb₁, hb₂⟩
                  subst hb₁
                  subst hb₂
                  have h₁ := ih src [] (i + 1) lc r₁ hsub
                  have h₂ := ih src (code ++ [Stmt.Loop lc]) r₁ p₂ r₂ hcont
                  omega
        · rw [if_neg h91] at h
          by_cases h93 : src[i] = 93
          · rw [if_pos h93] at h
            simp only [Option.some.injEq, Prod.mk.injEq] at h
            omega
          · rw [if_neg h93] at h
            cases hc : charToStmt src[i] with
            | none =>
                simp only [hc] at h
                have := ih src code (i + 1) p r h
                omega
            | some s =>
                simp only [hc] at h
                have := ih src (foldPush code s) (i + 1) p r h
                omega
      · rw [dif_neg hl] at h
        simp at h

/-- A clean scan reads only indices below its resume index, so truncating
the source anywhere at or beyond the resume index does not change it. -/
theorem parseGoB_clean_take (fuel : Nat) :
    ∀ src code i p r n, parseGoB fuel src code i = some (p, r, false) →
      r ≤ n → parseGoB fuel (src.take n) code i = some (p, r, false) := by
  induction fuel with
  | zero => intro src code i p r n h _; exact absurd h (by simp [parseGoB])
  | succ fuel ih =>
      intro src code i p r n h hn
      have hir := parseGoB_clean_progress (fuel + 1) src code i p r h
      rw [parseGoB] at h
      rw [parseGoB]
      by_cases hl : i < src.length
      · rw [dif_pos hl] at h
        have hl' : i < (src.take n).length := by
          rw [List.length_take]
          omega
        rw [dif_pos hl']
        have hget : (src.take n)[i] = src[i] := List.getElem_take src
        rw [hget]
        by_cases h91 : src[i] = 91
        · rw [if_pos h91] at h
          rw [if_pos h91]
          cases hsub : parseGoB fuel src [] (i + 1) with
          | none => simp only [hsub] at h; exact absurd h (by simp)
          | some x =>
              obtain ⟨lc, r₁, b₁⟩ := x
              simp only [hsub] at h
              cases hcont : parseGoB fuel src (code ++ [Stmt.Loop lc]) r₁ with
              | none => simp only [hcont] at h; exact absurd h (by simp)
              | some y =>
                  obtain ⟨p₂, r₂, b₂⟩ := y
                  simp only [hcont, Option.some.injEq, Prod.mk.injEq] at h
                  obtain ⟨hp, hr, hb⟩ := h
                  rcases Bool.or_eq_false_iff.mp hb with ⟨hb₁, hb₂⟩
                  subst hb₁
                  subst hb₂
                  have hr₁r := parseGoB_clean_progress fuel src
                    (code ++ [Stmt.Loop lc]) r₁ p₂ r₂ hcont
                  have hsub' := ih src [] (i + 1) lc r₁ n hsub (by omega)
                  have hcont' := ih src (code ++ [Stmt.Loop lc]) r₁ p₂ r₂ n
                    hcont (by omega)
                  simp only [hsub', hcont']
                  simp [hp, hr]
        · rw [if_neg h91] at h
          rw [if_neg h91]
          by_cases h93 : src[i] = 93
          · rw [if_pos h93] at h
            rw [if_pos h93]
            exact h
          · rw [if_neg h93] at h
            rw [if_neg h93]
            cases hc : charToStmt src[i] with
            | none =>
                simp only [hc] at h
                simp only [hc]
                exact ih src code (i + 1) p r n h hn
            | some s =>
                simp only [hc] at h
                simp only [hc]
                exact ih src (foldPush code s) (i + 1) p r n h hn
      · rw [dif_neg hl] at h
        simp at h

/-- A clean scan is unaffected by appending anything to the source. -/
theorem parseGoB_clean_extend (fuel : Nat) :
    ∀ src ext code i p r, parseGoB fuel src code i = some (p, r, false) →
      parseGoB fuel (src ++ ext) code i = some (p, r, false) := by
  induction fuel with
  | zero => intro src ext code i p r h; exact absurd h (by simp [parseGoB])
  | succ fuel ih =>
      intro src ext code i p r h
      rw [parseGoB] at h
      rw [parseGoB]
      by_cases hl : i < src.length
      · rw [dif_pos hl] at h
        have hl' : i < (src ++ ext).length := by
          rw [List.length_append]
          omega
        rw [dif_pos hl']
        have hget : (src ++ ext)[i] = src[i] := List.getElem_append_left hl
        rw [hget]
        by_cases h91 : src[i] = 91
        · rw [if_pos h91] at h
          rw [if_pos h91]
          cases hsub : parseGoB fuel src [] (i + 1) with
          | none => simp only [hsub] at h; exact absurd h (by simp)
          | some x =>
              obtain ⟨lc, r₁, b₁⟩ := x
              simp only [hsub] at h
              cases hcont : parseGoB fuel src (code ++ [Stmt.Loop lc]) r₁ with
              | none => simp only [hcont] at h; exact absurd h (by simp)
              | some y =>
                  obtain ⟨p₂, r₂, b₂⟩ := y
                  simp only [hcont, Option.some.injEq, Prod.mk.injEq] at h
                  obtain ⟨hp, hr, hb⟩ := h
                  rcases Bool.or_eq_false_iff.mp hb with ⟨hb₁, hb₂⟩
                  subst hb₁
                  subst hb₂
                  have hsub' := ih src ext [] (i + 1) lc r₁ hsub
                  have hcont' := ih src ext (code ++ [Stmt.Loop lc]) r₁ p₂ r₂
                    hcont
                  simp only [hsub', hcont']
                  simp [hp, hr]
        · rw [if_neg h91] at h
          rw [if_neg h91]
          by_cases h93 : src[i] = 93
          · rw [if_pos h93] at h
            rw [if_pos h93]
            exact h
          · rw [if_neg h93] at h
            rw [if_neg h93]
            cases hc : charToStmt src[i] with
            | none =>
                simp only [hc] at h
                simp only [hc]
                exact ih src ext code (i + 1) p r h
            | some s =>
                simp only [hc] at h
                simp only [hc]
                exact ih src ext (foldPush code s) (i + 1) p r h
      · rw [dif_neg hl] at h
        simp at h

/-- A clean scan ends at a `]` sitting at index `r - 1`; cutting the
source just before that `]` makes the same scan run off the end of the
input instead, returning the same accumulated program with resume index 0
(and the end-of-input flag set). -/
theorem parseGoB_clean_rbrack_truncate (fuel : Nat) :
    ∀ src code i p r, parseGoB fuel src code i = some (p, r, false) →
      src[r - 1]? = some 93 ∧
      parseGoB fuel (src.take (r - 1)) code i = some (p, 0, true) := by
  induction fuel with
  | zero => intro src code i p r h; exact absurd h (by simp [parseGoB])
  | succ fuel ih =>
      intro src code i p r h
      have hir := parseGoB_clean_progress (fuel + 1) src code i p r h
      rw [parseGoB] at h
      by_cases hl : i < src.length
      · rw [dif_pos hl] at h
        by_cases h91 : src[i] = 91
        · rw [if_pos h91] at h
          cases hsub : parseGoB fuel src [] (i + 1) with
          | none => simp only [hsub] at h; exact absurd h (by simp)
          | some x =>
              obtain ⟨lc, r₁, b₁⟩ := x
              simp only [hsub] at h
              cases hcont : parseGoB fuel src (code ++ [Stmt.Loop lc]) r₁ with
              | none => simp only [hcont] at h; exact absurd h (by simp)
              | some y =>
                  obtain ⟨p₂, r₂, b₂⟩ := y
                  simp only [hcont, Option.some.injEq, Prod.mk.injEq] at h
                  obtain ⟨hp, hr, hb⟩ := h
                  rcases Bool.or_eq_false_iff.mp hb with ⟨hb₁, hb₂⟩
                  subst hb₁
                  subst hb₂
                  have hprog₁ := parseGoB_clean_progress fuel src [] (i + 1)
                    lc r₁ hsub
                  have hprog₂ := parseGoB_clean_progress fuel src
                    (code ++ [Stmt.Loop lc]) r₁ p₂ r₂ hcont
                  obtain ⟨hbr, htr⟩ := ih src (code ++ [Stmt.Loop lc]) r₁ p₂ r₂
                    hcont
                  subst hp
                  subst hr
                  refine ⟨hbr, ?_⟩
                  rw [parseGoB]
                  have hl' : i < (src.take (r₂ - 1)).length := by
                    rw [List.length_take]
                    omega
                  rw [dif_pos hl']
                  have hget : (src.take (r₂ - 1))[i] = src[i] :=
                    List.getElem_take src
                  rw [hget, if_pos h91]
                  have hsub' := parseGoB_clean_take fuel src [] (i + 1) lc r₁
                    (r₂ - 1) hsub (by omega)
                  simp only [hsub', htr]
                  simp
        · rw [if_neg h91] at h
          by_cases h93 : src[i] = 93
          · rw [if_pos h93] at h
            simp only [Option.some.injEq, Prod.mk.injEq] at h
            obtain ⟨hp, hr, -⟩ := h
            subst hp
            subst hr
            have hri : i + 1 - 1 = i := by omega
            rw [hri]
            constructor
            · rw [List.getElem?_eq_getElem hl, h93]
            · rw [parseGoB]
              have hlen : ¬(i < (src.take i).length) := by
                rw [List.length_take]
                omega
              rw [dif_neg hlen]
          · rw [if_neg h93] at h
            cases hc : charToStmt src[i] with
            | none =>
                simp only [hc] at h
                obtain ⟨hbr, htr⟩ := ih src code (i + 1) p r h
                have hprog := parseGoB_clean_progress fuel src code (i + 1)
                  p r h
                refine ⟨hbr, ?_⟩
                rw [parseGoB]
                have hl' : i < (src.take (r - 1)).length := by
                  rw [List.length_take]
                  omega
                rw [dif_pos hl']
                have hget : (src.take (r - 1))[i] = src[i] :=
                  List.getElem_take src
                rw [hget, if_neg h91, if_neg h93]
                simp only [hc]
                exact htr
            | some s =>
                simp only [hc] at h
                obtain ⟨hbr, htr⟩ := ih src (foldPush code s) (i + 1) p r h
                have hprog := parseGoB_clean_progress fuel src
                  (foldPush code s) (i + 1) p r h
                refine ⟨hbr, ?_⟩
                rw [parseGoB]
                have hl' : i < (src.take (r - 1)).length := by
                  rw [List.length_take]
                  omega
                rw [dif_pos hl']
                have hget : (src.take (r - 1))[i] = src[i] :=
                  List.getElem_take src
                rw [hget, if_neg h91, if_neg h93]
                simp only [hc]
                exact htr
      · rw [dif_neg hl] at h
        simp at h

/-- C7: if the scan of a source from the top level terminates at a `]`
with no end-of-input event anywhere in the call tree — which is exactly
the scan behaviour on a source whose first unconsumed `]` sits at the top
level with no enclosing `[` — then the resume index `r` is positive, the
byte at `r - 1` is that `]`, the returned program equals the parse of the
bytes before the `]` alone, and no byte at index `r` or later has any
effect: the source may be cut there and extended arbitrarily without
changing the result. -/
theorem c7_top_level_rbrack_terminates_scan (fuel : Nat) (src : List Nat)
    (p : List Stmt) (r : Nat)
    (h : parseGoB fuel src [] 0 = some (p, r, false)) :
    0 < r ∧ src[r - 1]? = some 93 ∧
    parse fuel (src.take (r - 1)) 0 = some (p, 0) ∧
    ∀ ext, parse fuel (src.take r ++ ext) 0 = some (p, r) := by
  have hp := parseGoB_clean_progress fuel src [] 0 p r h
  obtain ⟨hbr, htr⟩ := parseGoB_clean_rbrack_truncate fuel src [] 0 p r h
  refine ⟨hp, hbr, ?_, ?_⟩
  · rw [parse, parseGo_eq_parseGoB, htr]
    rfl
  · intro ext
    have htake := parseGoB_clean_take fuel src [] 0 p r r h (Nat.le_refl r)
    have hext := parseGoB_clean_extend fuel (src.take r) ext [] 0 p r htake
    rw [parse, parseGo_eq_parseGoB, hext]
    rfl

theorem c7_witness :
    (0 : Nat) < 2 ∧ [43, 93, 46][2 - 1]? = some 93 ∧
    parse 5 (List.take (2 - 1) [43, 93, 46]) 0 = some ([Stmt.Add 1], 0) ∧
    parse 5 (List.take 2 [43, 93, 46] ++ [60]) 0 = some ([Stmt.Add 1], 2) :=
  have H := c7_top_level_rbrack_terminates_scan 5 [43, 93, 46] [Stmt.Add 1] 2
    (by rfl)
  ⟨H.1, H.2.1, H.2.2.1, H.2.2.2 [60]⟩
